import Mathlib

/-!
Shallow embedding of the portfolio valuation core of
`src/pages/showResults.js` (the `updateChartV2` pipeline).

Modelling conventions:
* Dates (`datetime` strings in the source) are modelled as natural numbers;
  two date strings are equal iff the naturals are, and the comparator
  `new Date(a) - new Date(b)` used by `datesSorted.sort` is modelled by `≤`
  on the naturals.
* JS numbers are modelled as rationals (`ℚ`); all source arithmetic on them
  is exact in the modelled range.
* `Number.prototype.toFixed(2)` produces the decimal string of the number
  rounded to two decimal places, half away from zero towards `+∞` for the
  positive values occurring here; we model the represented value as the
  rational `⌊100·q + 1/2⌋ / 100`.
* JS `Map` objects keyed by symbol are modelled as association lists where
  a later `set` wins, i.e. lookup searches the reversed list.
* A thrown `TypeError` (reading `.values` of an absent payload, or `.close`
  of `undefined` when a `values` array is empty) aborts the computation;
  the embedded `updateChartV2` returns `none` in exactly those cases.
-/

namespace ShowResults

/-- One element of a payload's `values` array: `{datetime, close}`. -/
structure TradingDay where
  datetime : ℕ
  close : ℚ
deriving DecidableEq, Repr

/-- A per-symbol provider payload `{status, values}` (TwelveData shape). -/
structure Payload where
  status : String
  values : List TradingDay
deriving DecidableEq, Repr

/-- One entry of `portfolio.assets`: `{symbol, portion}`. -/
structure Asset where
  symbol : String
  portion : ℚ
deriving DecidableEq, Repr

/-- The allocation plan `{initial, assets}` (`startDate` only feeds the
HTTP request, which is outside the modelled core). -/
structure Portfolio where
  initial : ℚ
  assets : List Asset
deriving DecidableEq, Repr

/-- The fetched data object, keyed by symbol.  A JS object has unique keys;
we model it as an association list queried with `List.lookup`. -/
abbrev StockData := List (String × Payload)

/-- A chart point `{x, y}`; `y` holds the rational value represented by the
2-decimal string `value.toFixed(2)`. -/
structure SeriesPoint where
  x : ℕ
  y : ℚ
deriving DecidableEq, Repr

/-- One output series `{name, type, data}`. -/
structure ChartSeries where
  name : String
  type : String
  data : List SeriesPoint
deriving DecidableEq, Repr

/-- The observable outcome of `updateChartV2`: the series handed to the
chart, the error message state, and whether `setChartLoaded(true)` ran. -/
structure ChartOutput where
  chartSeries : List ChartSeries
  errMsg : String
  chartLoaded : Bool
deriving DecidableEq, Repr

/-- Value represented by the 2-decimal string `q.toFixed(2)`. -/
def toFixed2 (q : ℚ) : ℚ := ((⌊q * 100 + 1/2⌋ : ℤ) : ℚ) / 100

/-- `stockSymbols = portfolio.assets.map((asset) => asset.symbol)`. -/
def stockSymbols (p : Portfolio) : List String := p.assets.map Asset.symbol

/-- The `values` array of a symbol's payload (`stockData[symbol].values`);
`[]` as a placeholder when the payload is absent (the callers below only
use it after the absence guard has passed). -/
def valuesFor (sd : StockData) (s : String) : List TradingDay :=
  ((List.lookup s sd).map Payload.values).getD []

/-- The status check of lines 166-171.  It is `true` iff some requested
symbol has no payload or a payload whose `status` is not `"ok"`.  In the
source the `forEach` callback only sets `errMsg`; its `return` does NOT
abort `updateChartV2`. -/
def statusCheckFails (p : Portfolio) (sd : StockData) : Bool :=
  (stockSymbols p).any fun s =>
    match List.lookup s sd with
    | none => true
    | some pl => pl.status ≠ "ok"

/-- The shares loop of lines 176-182 throws a `TypeError` iff some asset's
payload is absent (`stockData[asset.symbol].values`) or its `values` array
is empty (`assetData[assetData.length - 1].close` of `undefined`). -/
def sharesCrashes (p : Portfolio) (sd : StockData) : Bool :=
  p.assets.any fun a =>
    match List.lookup a.symbol sd with
    | none => true
    | some pl => pl.values.isEmpty

/-- `sharesBought.get(s)`: the `sharesBought` map is built by iterating
`portfolio.assets` with `Map.set` (a later asset with the same symbol
overwrites an earlier one), storing
`asset.portion * portfolio.initial / assetData[assetData.length - 1].close`
(the last entry of the `values` array, assumed to be in descending date
order).  Lookup of an absent key is modelled by the (never used) default
`0`. -/
def sharesFor (p : Portfolio) (sd : StockData) (s : String) : ℚ :=
  ((p.assets.reverse.find? fun a => a.symbol == s).map fun a =>
    a.portion * p.initial / (((valuesFor sd a.symbol).getLast?.map TradingDay.close).getD 0)).getD 0

/-- `stockValuesByDate.get(symbol).get(date)` (lines 190-204): the per-date
map is built by iterating the `values` array with `Map.set`, so for a
duplicated date the later array entry wins; the stored value is
`sharesBought.get(symbol) * closingPrice`. -/
def symbolValueAt (sh : ℚ) (values : List TradingDay) (d : ℕ) : Option ℚ :=
  (values.reverse.find? fun td => td.datetime == d).map fun td => sh * td.close

/-- The contents of the `allDates` set (lines 193-204): every `datetime`
of every requested symbol's `values` array, in iteration order. -/
def allDatesList (p : Portfolio) (sd : StockData) : List ℕ :=
  (stockSymbols p).foldr (fun s acc => (valuesFor sd s).map TradingDay.datetime ++ acc) []

/-- `datesSorted` (lines 220-222): the distinct dates, sorted ascending by
the `new Date(a) - new Date(b)` comparator. -/
def allDatesSorted (p : Portfolio) (sd : StockData) : List ℕ :=
  List.insertionSort (· ≤ ·) (allDatesList p sd).dedup

/-- The data array accumulated for one symbol's series by the walk of
lines 235-246: a point `{x: date, y: value.toFixed(2)}` for exactly the
timeline dates on which the symbol has a quote. -/
def seriesDataFor (sh : ℚ) (values : List TradingDay) (dates : List ℕ) : List SeriesPoint :=
  dates.filterMap fun d => (symbolValueAt sh values d).map fun v => ⟨d, toFixed2 v⟩

/-- One step of the walk's `currentValues` update (lines 236-246): on date
`d`, a symbol with a quote on `d` is set to its fresh value, all others
keep their running value. -/
def stepValues (sd : StockData) (sh : String → ℚ) (cur : String → ℚ) (d : ℕ) :
    String → ℚ :=
  fun s => (symbolValueAt (sh s) (valuesFor sd s) d).getD (cur s)

/-- The `Total` series data built by the walk of lines 235-256: for each
date, after updating `currentValues`, push
`{x: date, y: portfolioValue.toFixed(2)}` where `portfolioValue` is the sum
of `currentValues.get(symbol)` over `stockSymbols`. -/
def walkTotals (sd : StockData) (sh : String → ℚ) (symbols : List String) :
    (String → ℚ) → List ℕ → List SeriesPoint
  | _, [] => []
  | cur, d :: ds =>
    ⟨d, toFixed2 ((symbols.map (stepValues sd sh cur d)).sum)⟩ ::
      walkTotals sd sh symbols (stepValues sd sh cur d) ds

/-- The user-visible error message set by the failed status check. -/
def retrievalErrorMsg : String :=
  "Sorry, but data could not be retrieved for every stock in your portfolio."

/-- The output series object `newChartSeries[symbol]` for one stock. -/
def symbolSeriesOf (p : Portfolio) (sd : StockData) (s : String) : ChartSeries :=
  { name := s
    type := "area"
    data := seriesDataFor (sharesFor p sd s) (valuesFor sd s) (allDatesSorted p sd) }

/-- The output series object `newChartSeries["Total"]`. -/
def totalSeriesOf (p : Portfolio) (sd : StockData) : ChartSeries :=
  { name := "Total"
    type := "area"
    data := walkTotals sd (sharesFor p sd) (stockSymbols p) (fun _ => 0) (allDatesSorted p sd) }

/-- The state written at the end of a non-throwing run: the series list in
`seriesNames = stockSymbols.concat(["Total"])` order, the error-message
state, and `chartLoaded = true`.  (A plan symbol literally named `"Total"`
would alias the `newChartSeries` object entry in the source; theorems about
the per-symbol series therefore assume the symbol is not `"Total"`.) -/
def buildOutput (p : Portfolio) (sd : StockData) : ChartOutput :=
  { chartSeries := ((stockSymbols p).map (symbolSeriesOf p sd)) ++ [totalSeriesOf p sd]
    errMsg := if statusCheckFails p sd then retrievalErrorMsg else ""
    chartLoaded := true }

/-- The full `updateChartV2` pipeline (lines 154-271) on already-fetched
data.  `none` models the uncaught `TypeError` thrown by the shares loop
(absent payload or empty `values`); otherwise the chart series are built
and `setChartLoaded(true)` runs — note that a failed status check only
sets `errMsg` and does not stop the computation. -/
def updateChartV2 (p : Portfolio) (sd : StockData) : Option ChartOutput :=
  if sharesCrashes p sd then none else some (buildOutput p sd)

/-- `getRawStockData` (lines 111-149): the `rawStockData` ref caches the
first fetched payload; later calls return the cached object.  State is
passed explicitly: the function returns the data used and the new cache. -/
def getRawStockData (cache : Option StockData) (fetched : StockData) :
    StockData × Option StockData :=
  match cache with
  | some d => (d, some d)
  | none => (fetched, some fetched)

/-- One button press: fetch (through the cache) and run `updateChartV2`. -/
def runUpdateChart (p : Portfolio) (cache : Option StockData) (fetched : StockData) :
    Option ChartOutput × Option StockData :=
  ((updateChartV2 p (getRawStockData cache fetched).1), (getRawStockData cache fetched).2)

/-- The per-symbol running value after folding the source's update over a
list of dates, starting from `c` (the `currentValues` entry starts at 0). -/
def carryFold (sh : ℚ) (values : List TradingDay) (c : ℚ) (dates : List ℕ) : ℚ :=
  dates.foldl (fun cur d => (symbolValueAt sh values d).getD cur) c

/-- The running value of one symbol after the walk has processed `dates`
from its initial 0. -/
def currentValuesAfter (sh : ℚ) (values : List TradingDay) (dates : List ℕ) : ℚ :=
  carryFold sh values 0 dates

/-- The value the walk uses for symbol `s` when it computes the total on
date `d` of a sorted `timeline`: the running value after processing every
timeline date `≤ d`. -/
def valueUsedAt (sd : StockData) (sh : String → ℚ) (s : String)
    (timeline : List ℕ) (d : ℕ) : ℚ :=
  currentValuesAfter (sh s) (valuesFor sd s) (timeline.filter fun e => e ≤ d)

/-- The full-precision portfolio total at date `d`. -/
def fullTotalAt (p : Portfolio) (sd : StockData) (d : ℕ) : ℚ :=
  ((stockSymbols p).map fun s =>
    valueUsedAt sd (sharesFor p sd) s (allDatesSorted p sd) d).sum

/-- Specification-side carry-forward value: `sh` times the closing price at
the most recent quote date strictly before `d`, or `0` if there is none. -/
def lastKnownBefore (sh : ℚ) (values : List TradingDay) (d : ℕ) : ℚ :=
  match (values.filter fun td => td.datetime < d).argmax TradingDay.datetime with
  | some td => sh * td.close
  | none => 0

/-! ### Generic helper lemmas -/

/-- In a list whose keys are distinct, `find?` by key on the reversed list
(i.e. "last `Map.set` wins" lookup) returns the unique matching element. -/
theorem reverse_find_eq_some {α β : Type} [DecidableEq β] (key : α → β) (l : List α) (a : α) :
    a ∈ l → (l.map key).Nodup → l.reverse.find? (fun x => key x == key a) = some a := by
  induction l with
  | nil => intro ha _; cases ha
  | cons b t ih =>
    intro ha hnd
    rw [List.reverse_cons, List.find?_append]
    have hnd2 : (∀ x ∈ t, ¬key x = key b) ∧ (t.map key).Nodup := by
      simpa using hnd
    rcases List.mem_cons.mp ha with rfl | hat
    · have hnone : t.reverse.find? (fun x => key x == key a) = none := by
        rw [List.find?_eq_none]
        intro x hx hcontra
        exact hnd2.1 x (List.mem_reverse.mp hx) (by simpa using hcontra)
      rw [hnone]
      simp [List.find?]
    · rw [ih hat hnd2.2]
      rfl

/-- In a strictly descending-by-`datetime` list, the last element has the
minimal `datetime`. -/
theorem getLast_min_of_sorted_desc (l : List TradingDay) :
    ∀ (h : l ≠ []), l.Sorted (fun a b => b.datetime < a.datetime) →
      ∀ td ∈ l, (l.getLast h).datetime ≤ td.datetime := by
  induction l with
  | nil => intro h; exact absurd rfl h
  | cons x t ih =>
    intro h hs td htd
    cases t with
    | nil =>
      simp only [List.mem_singleton] at htd
      subst htd
      simp [List.getLast]
    | cons y t2 =>
      rw [List.getLast_cons (by simp)]
      rcases List.mem_cons.mp htd with rfl | htd2
      · have hmem := List.getLast_mem (l := y :: t2) (by simp)
        exact le_of_lt ((List.pairwise_cons.mp hs).1 _ hmem)
      · exact ih (by simp) (List.pairwise_cons.mp hs).2 td htd2

/-- The walk emits its points exactly at the processed dates, in order. -/
theorem walkTotals_map_x (sd : StockData) (sh : String → ℚ) (sy : List String) :
    ∀ (l : List ℕ) (cur : String → ℚ),
      (walkTotals sd sh sy cur l).map SeriesPoint.x = l := by
  intro l
  induction l with
  | nil => intro cur; rfl
  | cons d ds ih => intro cur; simp [walkTotals, ih]

theorem carryFold_append (sh : ℚ) (v : List TradingDay) (c : ℚ) (l₁ l₂ : List ℕ) :
    carryFold sh v c (l₁ ++ l₂) = carryFold sh v (carryFold sh v c l₁) l₂ :=
  List.foldl_append ..

/-- Folding over dates on which the symbol has no quote keeps the running
value unchanged. -/
theorem carryFold_of_none (sh : ℚ) (v : List TradingDay) :
    ∀ (l : List ℕ) (c : ℚ), (∀ e ∈ l, symbolValueAt sh v e = none) →
      carryFold sh v c l = c := by
  intro l
  induction l with
  | nil => intro c _; rfl
  | cons d ds ih =>
    intro c hnone
    show carryFold sh v ((symbolValueAt sh v d).getD c) ds = c
    rw [hnone d (by simp)]
    exact ih _ (fun e he => hnone e (by simp [he]))

/-- If `m` is a date of the sorted list on which the symbol quotes `val`
and the symbol has no quote on any later date of the list, the fold ends
at `val`. -/
theorem carryFold_of_max (sh : ℚ) (v : List TradingDay) (val : ℚ) :
    ∀ (l : List ℕ) (c : ℚ) (m : ℕ), l.Sorted (· < ·) → m ∈ l →
      symbolValueAt sh v m = some val →
      (∀ e ∈ l, m < e → symbolValueAt sh v e = none) →
      carryFold sh v c l = val := by
  intro l
  induction l with
  | nil => intro c m _ hm; cases hm
  | cons d ds ih =>
    intro c m hs hm hval hnone
    rcases List.mem_cons.mp hm with rfl | hm2
    · have hrest : ∀ e ∈ ds, symbolValueAt sh v e = none := fun e he =>
        hnone e (by simp [he]) ((List.pairwise_cons.mp hs).1 e he)
      show carryFold sh v ((symbolValueAt sh v m).getD c) ds = val
      rw [hval]
      simpa using carryFold_of_none sh v ds _ hrest
    · show carryFold sh v ((symbolValueAt sh v d).getD c) ds = val
      exact ih _ m (List.pairwise_cons.mp hs).2 hm2 hval
        (fun e he hlt => hnone e (by simp [he]) hlt)

/-- In a strictly sorted list split as `l₁ ++ d :: l₂`, the dates `≤ d` are
exactly `l₁ ++ [d]`. -/
theorem filter_le_of_sorted_append (d : ℕ) (l₁ l₂ : List ℕ)
    (hs : (l₁ ++ d :: l₂).Sorted (· < ·)) :
    (l₁ ++ d :: l₂).filter (fun e => e ≤ d) = l₁ ++ [d] := by
  obtain ⟨h1, h2, h3⟩ := List.pairwise_append.mp hs
  rw [List.filter_append]
  have e1 : l₁.filter (fun e => e ≤ d) = l₁ :=
    List.filter_eq_self.mpr fun a ha => by
      simpa using le_of_lt (h3 a ha d (by simp))
  have e2 : (d :: l₂).filter (fun e => e ≤ d) = [d] := by
    rw [List.filter_cons_of_pos (by simp)]
    have : l₂.filter (fun e => e ≤ d) = [] :=
      List.filter_eq_nil_iff.mpr fun a ha => by
        simpa using not_le.mpr ((List.pairwise_cons.mp h2).1 a ha)
    rw [this]
  rw [e1, e2]

/-- One update of the walk's running values, expressed as a fold over one
more processed date. -/
theorem stepValues_currentValuesAfter (sd : StockData) (sh : String → ℚ)
    (l : List ℕ) (d : ℕ) :
    stepValues sd sh (fun s => currentValuesAfter (sh s) (valuesFor sd s) l) d
      = fun s => currentValuesAfter (sh s) (valuesFor sd s) (l ++ [d]) := by
  funext s
  simp [stepValues, currentValuesAfter, carryFold_append, carryFold]

/-- Characterisation of the walk of lines 235-256: started after a
processed prefix `l₁`, on the remaining sorted dates it emits, for each
date `d`, the rounded sum of the per-symbol running values over all
timeline dates `≤ d`. -/
theorem walkTotals_char (sd : StockData) (sh : String → ℚ) (sy : List String) :
    ∀ (l₂ l₁ : List ℕ), (l₁ ++ l₂).Sorted (· < ·) →
      walkTotals sd sh sy (fun s => currentValuesAfter (sh s) (valuesFor sd s) l₁) l₂
        = l₂.map fun d =>
            ⟨d, toFixed2 ((sy.map fun s =>
              currentValuesAfter (sh s) (valuesFor sd s)
                ((l₁ ++ l₂).filter fun e => e ≤ d)).sum)⟩ := by
  intro l₂
  induction l₂ with
  | nil => intro l₁ _; rfl
  | cons d ds ih =>
    intro l₁ hs
    have hassoc : (l₁ ++ [d]) ++ ds = l₁ ++ d :: ds := by simp
    have hs2 : ((l₁ ++ [d]) ++ ds).Sorted (· < ·) := by rw [hassoc]; exact hs
    simp only [walkTotals, stepValues_currentValuesAfter, List.map_cons]
    rw [ih (l₁ ++ [d]) hs2]
    rw [filter_le_of_sorted_append d l₁ ds hs]
    rw [hassoc]

/-- The walk from the all-zero initial state on a sorted timeline. -/
theorem walkTotals_eq_map (sd : StockData) (sh : String → ℚ) (sy : List String)
    (l : List ℕ) (hs : l.Sorted (· < ·)) :
    walkTotals sd sh sy (fun _ => 0) l
      = l.map fun d => ⟨d, toFixed2 ((sy.map fun s =>
          currentValuesAfter (sh s) (valuesFor sd s) (l.filter fun e => e ≤ d)).sum)⟩ := by
  have h := walkTotals_char sd sh sy l [] (by simpa using hs)
  simpa using h

theorem allDatesSorted_sorted (p : Portfolio) (sd : StockData) :
    (allDatesSorted p sd).Sorted (· < ·) := by
  have hle : (allDatesSorted p sd).Sorted (· ≤ ·) := List.sorted_insertionSort _ _
  have hnd : (allDatesSorted p sd).Nodup :=
    (List.perm_insertionSort _ _).nodup_iff.mpr (List.nodup_dedup _)
  exact List.Pairwise.imp₂ (fun a b h1 h2 => lt_of_le_of_ne h1 h2) hle hnd

theorem mem_allDatesList (p : Portfolio) (sd : StockData) (d : ℕ) :
    d ∈ allDatesList p sd ↔ ∃ s ∈ stockSymbols p, ∃ td ∈ valuesFor sd s, td.datetime = d := by
  unfold allDatesList
  generalize stockSymbols p = L
  induction L with
  | nil => simp
  | cons s rest ih =>
    simp only [List.foldr_cons, List.mem_append, List.mem_map, List.mem_cons]
    rw [ih]
    constructor
    · rintro (⟨td, htd, rfl⟩ | ⟨s2, hs2, td, htd, rfl⟩)
      · exact ⟨s, Or.inl rfl, td, htd, rfl⟩
      · exact ⟨s2, Or.inr hs2, td, htd, rfl⟩
    · rintro ⟨s2, rfl | hs2, td, htd, rfl⟩
      · exact Or.inl ⟨td, htd, rfl⟩
      · exact Or.inr ⟨s2, hs2, td, htd, rfl⟩

theorem mem_allDatesSorted (p : Portfolio) (sd : StockData) (d : ℕ) :
    d ∈ allDatesSorted p sd ↔ ∃ s ∈ stockSymbols p, ∃ td ∈ valuesFor sd s, td.datetime = d := by
  rw [allDatesSorted, (List.perm_insertionSort _ _).mem_iff, List.mem_dedup]
  exact mem_allDatesList p sd d

theorem quote_mem_allDatesSorted (p : Portfolio) (sd : StockData) (s : String)
    (hs : s ∈ stockSymbols p) (td : TradingDay) (htd : td ∈ valuesFor sd s) :
    td.datetime ∈ allDatesSorted p sd :=
  (mem_allDatesSorted p sd td.datetime).mpr ⟨s, hs, td, htd, rfl⟩

theorem symbolValueAt_isSome (sh : ℚ) (v : List TradingDay) (d : ℕ) :
    (symbolValueAt sh v d).isSome ↔ ∃ td ∈ v, td.datetime = d := by
  simp [symbolValueAt, List.find?_isSome, List.mem_reverse]

theorem symbolValueAt_eq_none (sh : ℚ) (v : List TradingDay) (d : ℕ) :
    symbolValueAt sh v d = none ↔ ∀ td ∈ v, td.datetime ≠ d := by
  simp [symbolValueAt, List.find?_eq_none, List.mem_reverse]

/-- With distinct quote dates, the per-date value map holds `sh * close`
at each quote's date. -/
theorem symbolValueAt_of_nodup (sh : ℚ) (v : List TradingDay) (td : TradingDay)
    (htd : td ∈ v) (hnd : (v.map TradingDay.datetime).Nodup) :
    symbolValueAt sh v td.datetime = some (sh * td.close) := by
  unfold symbolValueAt
  rw [reverse_find_eq_some TradingDay.datetime v td htd hnd]
  rfl

/-- `toFixed(2)` changes a value by at most half a cent. -/
theorem abs_toFixed2_sub_le (q : ℚ) : |toFixed2 q - q| ≤ 1/200 := by
  have h1 : ((⌊q * 100 + 1/2⌋ : ℤ) : ℚ) ≤ q * 100 + 1/2 := Int.floor_le _
  have h2 : q * 100 + 1/2 < (⌊q * 100 + 1/2⌋ : ℤ) + 1 := Int.lt_floor_add_one _
  rw [toFixed2, abs_le]
  constructor
  · linarith
  · linarith

/-- Summing per-element rounding errors over a list of symbols. -/
theorem abs_sum_sub_sum_le (f g : String → ℚ) :
    ∀ (l : List String), (∀ s ∈ l, |f s - g s| ≤ 1/200) →
      |(l.map f).sum - (l.map g).sum| ≤ l.length / 200 := by
  intro l
  induction l with
  | nil => simp
  | cons s rest ih =>
    intro h
    simp only [List.map_cons, List.sum_cons, List.length_cons]
    have h1 := h s (by simp)
    have h2 := ih fun x hx => h x (by simp [hx])
    have he : f s + (rest.map f).sum - (g s + (rest.map g).sum)
        = (f s - g s) + ((rest.map f).sum - (rest.map g).sum) := by ring
    rw [he]
    have h3 := abs_add (f s - g s) ((rest.map f).sum - (rest.map g).sum)
    have h4 : (|f s - g s| + |(rest.map f).sum - (rest.map g).sum|)
        ≤ 1/200 + rest.length / 200 := add_le_add h1 h2
    have h5 : ((rest.length + 1 : ℕ) : ℚ) / 200 = 1/200 + rest.length / 200 := by
      push_cast
      ring
    rw [h5]
    exact le_trans h3 h4

/-- A rounded value is an exact multiple of a hundredth. -/
theorem toFixed2_mul_den (q : ℚ) : (100 * toFixed2 q).den = 1 := by
  rw [toFixed2]
  have h : (100 : ℚ) * (((⌊q * 100 + 1/2⌋ : ℤ) : ℚ) / 100) = ((⌊q * 100 + 1/2⌋ : ℤ) : ℚ) := by
    ring
  rw [h, Rat.den_intCast]

theorem updateChartV2_eq_some (p : Portfolio) (sd : StockData)
    (h : sharesCrashes p sd = false) :
    updateChartV2 p sd = some (buildOutput p sd) := by
  simp [updateChartV2, h]

theorem buildOutput_chartSeries (p : Portfolio) (sd : StockData) :
    (buildOutput p sd).chartSeries
      = ((stockSymbols p).map (symbolSeriesOf p sd)) ++ [totalSeriesOf p sd] := rfl

theorem totalSeriesOf_data (p : Portfolio) (sd : StockData) :
    (totalSeriesOf p sd).data
      = walkTotals sd (sharesFor p sd) (stockSymbols p) (fun _ => 0) (allDatesSorted p sd) := rfl

theorem symbolSeriesOf_data (p : Portfolio) (sd : StockData) (s : String) :
    (symbolSeriesOf p sd s).data
      = seriesDataFor (sharesFor p sd s) (valuesFor sd s) (allDatesSorted p sd) := rfl

/-- The dates at which a symbol's series has points are the timeline dates
on which the symbol has a quote. -/
theorem seriesDataFor_map_x (sh : ℚ) (v : List TradingDay) :
    ∀ dates : List ℕ, (seriesDataFor sh v dates).map SeriesPoint.x
      = dates.filter fun d => (symbolValueAt sh v d).isSome := by
  intro dates
  induction dates with
  | nil => rfl
  | cons d ds ih =>
    simp only [seriesDataFor, List.filterMap_cons] at ih ⊢
    cases hv : symbolValueAt sh v d with
    | none => simpa [hv, List.filter_cons] using ih
    | some v0 => simpa [hv, List.filter_cons] using ih

/-! ### Claim theorems -/

/-- C1: for every asset of the plan — with its payload present, a nonempty
`values` array delivered in the provider's descending date order, and
distinct plan symbols — the computed share count equals
`plan.initialAmount * portion` divided by the closing price at the
earliest date present in that symbol's series. -/
theorem shares_use_earliest_price
    (p : Portfolio) (sd : StockData) (asset : Asset) (pl : Payload)
    (ha : asset ∈ p.assets)
    (hnd : (p.assets.map Asset.symbol).Nodup)
    (hpl : List.lookup asset.symbol sd = some pl)
    (hne : pl.values ≠ [])
    (hdesc : pl.values.Sorted fun a b => b.datetime < a.datetime) :
    ∃ td ∈ pl.values, (∀ td2 ∈ pl.values, td.datetime ≤ td2.datetime) ∧
      sharesFor p sd asset.symbol = p.initial * asset.portion / td.close := by
  refine ⟨pl.values.getLast hne, List.getLast_mem hne,
    getLast_min_of_sorted_desc pl.values hne hdesc, ?_⟩
  unfold sharesFor
  rw [reverse_find_eq_some Asset.symbol p.assets asset ha hnd]
  simp only [Option.map_some', Option.getD_some]
  unfold valuesFor
  rw [hpl]
  simp only [Option.map_some', Option.getD_some]
  rw [List.getLast?_eq_getLast pl.values hne]
  simp only [Option.map_some', Option.getD_some]
  rw [mul_comm asset.portion p.initial]

/-- The spec's concrete scenario for C1: plan `{1000, [("X", 1.0)]}` with
X quoting 100 on day 1 and 150 on day 2 (payload in descending order). -/
def planC1 : Portfolio := ⟨1000, [⟨"X", 1⟩]⟩

def dataC1 : StockData := [("X", ⟨"ok", [⟨2, 150⟩, ⟨1, 100⟩]⟩)]

set_option maxRecDepth 100000 in
/-- Witness for C1: on the spec's concrete scenario the hypotheses hold and
the computed share count is `10`. -/
theorem shares_use_earliest_price_witness :
    (⟨"X", 1⟩ : Asset) ∈ planC1.assets ∧
    (planC1.assets.map Asset.symbol).Nodup ∧
    List.lookup "X" dataC1 = some ⟨"ok", [⟨2, 150⟩, ⟨1, 100⟩]⟩ ∧
    ([⟨2, 150⟩, ⟨1, 100⟩] : List TradingDay) ≠ [] ∧
    List.Sorted (fun a b => b.datetime < a.datetime) ([⟨2, 150⟩, ⟨1, 100⟩] : List TradingDay) ∧
    (∃ td ∈ ([⟨2, 150⟩, ⟨1, 100⟩] : List TradingDay),
      (∀ td2 ∈ ([⟨2, 150⟩, ⟨1, 100⟩] : List TradingDay), td.datetime ≤ td2.datetime) ∧
      sharesFor planC1 dataC1 "X" = 1000 * 1 / td.close) ∧
    sharesFor planC1 dataC1 "X" = 10 :=
  ⟨by with_unfolding_all decide, by with_unfolding_all decide, by with_unfolding_all decide,
   by with_unfolding_all decide, by with_unfolding_all decide,
   shares_use_earliest_price planC1 dataC1 ⟨"X", 1⟩ ⟨"ok", [⟨2, 150⟩, ⟨1, 100⟩]⟩
     (by with_unfolding_all decide) (by with_unfolding_all decide)
     (by with_unfolding_all decide) (by with_unfolding_all decide)
     (by with_unfolding_all decide),
   by with_unfolding_all decide⟩

/-- C6 failing input: the single requested symbol's payload has
`status = "error"` (with a `values` array, as TwelveData error payloads may
carry fields), so the spec demands a fail-fast with no output series. -/
def planC6 : Portfolio := ⟨1000, [⟨"X", 1⟩]⟩

def dataC6 : StockData := [("X", ⟨"error", [⟨1, 100⟩]⟩)]

set_option maxRecDepth 100000 in
/-- C6: the status check of lines 166-171 notices the non-`"ok"` payload
and sets the error message, but its `return` only leaves the `forEach`
callback, so `updateChartV2` runs to completion: a full chart series is
produced and `setChartLoaded(true)` runs — contradicting the spec's
fail-fast, no-partial-chart contract. -/
theorem status_error_still_renders_chart :
    statusCheckFails planC6 dataC6 = true ∧
    (updateChartV2 planC6 dataC6).map
        (fun o => (o.errMsg, o.chartLoaded, o.chartSeries.map fun cs => (cs.name, cs.data)))
      = some (retrievalErrorMsg, true,
          [("X", [⟨1, 1000⟩]), ("Total", [⟨1, 1000⟩])]) :=
  ⟨by decide, by with_unfolding_all decide⟩

/-- C2: on any non-throwing input, the walk emits exactly one total-value
point per distinct date in the union of all symbols' dates, the emitted
dates are strictly ascending, and no date outside the union is emitted. -/
theorem total_series_dates_are_sorted_union
    (p : Portfolio) (sd : StockData) (h : sharesCrashes p sd = false) :
    ∃ out, updateChartV2 p sd = some out ∧
      ∃ ts, out.chartSeries.getLast? = some ts ∧ ts.name = "Total" ∧
        (ts.data.map SeriesPoint.x).Sorted (· < ·) ∧
        (ts.data.map SeriesPoint.x).Nodup ∧
        ∀ d, d ∈ ts.data.map SeriesPoint.x ↔
          ∃ s ∈ stockSymbols p, ∃ td ∈ valuesFor sd s, td.datetime = d := by
  refine ⟨buildOutput p sd, updateChartV2_eq_some p sd h, totalSeriesOf p sd,
    ?_, rfl, ?_, ?_, ?_⟩
  · rw [buildOutput_chartSeries]
    exact List.getLast?_concat _
  · rw [totalSeriesOf_data, walkTotals_map_x]
    exact allDatesSorted_sorted p sd
  · rw [totalSeriesOf_data, walkTotals_map_x]
    exact (allDatesSorted_sorted p sd).nodup
  · intro d
    rw [totalSeriesOf_data, walkTotals_map_x]
    exact mem_allDatesSorted p sd d

/-- Two-symbol input for the C2 witness: A quotes only on day 3, B quotes
on days 1 and 2. -/
def planC2 : Portfolio := ⟨100, [⟨"A", 1/2⟩, ⟨"B", 1/2⟩]⟩

def dataC2 : StockData := [("A", ⟨"ok", [⟨3, 10⟩]⟩), ("B", ⟨"ok", [⟨2, 30⟩, ⟨1, 20⟩]⟩)]

/-- Witness for C2 at a concrete two-symbol input. -/
theorem total_series_dates_are_sorted_union_witness :
    sharesCrashes planC2 dataC2 = false ∧
    (∃ out, updateChartV2 planC2 dataC2 = some out ∧
      ∃ ts, out.chartSeries.getLast? = some ts ∧ ts.name = "Total" ∧
        (ts.data.map SeriesPoint.x).Sorted (· < ·) ∧
        (ts.data.map SeriesPoint.x).Nodup ∧
        ∀ d, d ∈ ts.data.map SeriesPoint.x ↔
          ∃ s ∈ stockSymbols planC2, ∃ td ∈ valuesFor dataC2 s, td.datetime = d) :=
  ⟨by decide, total_series_dates_are_sorted_union planC2 dataC2 (by decide)⟩

/-- C3: on any non-throwing run, for a date of the emitted timeline on
which a symbol of the plan (with distinct quote dates) has no quote, the
value the walk uses for that symbol when it computes the total is the
symbol's value at its most recent earlier quote date, or `0` if the symbol
has no earlier quote — both cases packaged in `lastKnownBefore`. -/
theorem carry_forward_uses_last_known
    (p : Portfolio) (sd : StockData) (s : String) (d : ℕ)
    (hs : s ∈ stockSymbols p)
    (hd : d ∈ allDatesSorted p sd)
    (hnq : ∀ td ∈ valuesFor sd s, td.datetime ≠ d)
    (hnd : ((valuesFor sd s).map TradingDay.datetime).Nodup) :
    valueUsedAt sd (sharesFor p sd) s (allDatesSorted p sd) d
      = lastKnownBefore (sharesFor p sd s) (valuesFor sd s) d := by
  have hFs : ((allDatesSorted p sd).filter fun e => e ≤ d).Sorted (· < ·) :=
    (allDatesSorted_sorted p sd).sublist (List.filter_sublist _)
  unfold valueUsedAt currentValuesAfter
  cases hmax : ((valuesFor sd s).filter fun td => td.datetime < d).argmax TradingDay.datetime with
  | none =>
    have hempty : ((valuesFor sd s).filter fun td => td.datetime < d) = [] :=
      List.argmax_eq_none.mp hmax
    have hnone : ∀ e ∈ (allDatesSorted p sd).filter (fun e => e ≤ d),
        symbolValueAt (sharesFor p sd s) (valuesFor sd s) e = none := by
      intro e he
      rw [symbolValueAt_eq_none]
      intro td htd habs
      have hle : e ≤ d := by simpa using (List.mem_filter.mp he).2
      have hlt : td.datetime < d := lt_of_le_of_ne (habs ▸ hle) (hnq td htd)
      have hmem : td ∈ (valuesFor sd s).filter fun td => td.datetime < d :=
        List.mem_filter.mpr ⟨htd, by simpa using hlt⟩
      rw [hempty] at hmem
      cases hmem
    rw [lastKnownBefore, hmax]
    exact carryFold_of_none _ _ _ 0 hnone
  | some td =>
    have htdf : td ∈ (valuesFor sd s).filter fun td => td.datetime < d :=
      List.argmax_mem (Option.mem_def.mpr hmax)
    have htd : td ∈ valuesFor sd s := (List.mem_filter.mp htdf).1
    have hlt : td.datetime < d := by simpa using (List.mem_filter.mp htdf).2
    have hmaximal : ∀ a ∈ (valuesFor sd s).filter fun td => td.datetime < d,
        a.datetime ≤ td.datetime :=
      fun a haf => List.le_of_mem_argmax haf (Option.mem_def.mpr hmax)
    have hmemF : td.datetime ∈ (allDatesSorted p sd).filter fun e => e ≤ d :=
      List.mem_filter.mpr
        ⟨quote_mem_allDatesSorted p sd s hs td htd, by simpa using le_of_lt hlt⟩
    have hval : symbolValueAt (sharesFor p sd s) (valuesFor sd s) td.datetime
        = some (sharesFor p sd s * td.close) :=
      symbolValueAt_of_nodup _ _ td htd hnd
    have hlater : ∀ e ∈ (allDatesSorted p sd).filter fun e => e ≤ d,
        td.datetime < e →
        symbolValueAt (sharesFor p sd s) (valuesFor sd s) e = none := by
      intro e he hgt
      rw [symbolValueAt_eq_none]
      intro td2 htd2 habs
      have hle : e ≤ d := by simpa using (List.mem_filter.mp he).2
      have hlt2 : td2.datetime < d := lt_of_le_of_ne (habs ▸ hle) (hnq td2 htd2)
      have hf2 : td2 ∈ (valuesFor sd s).filter fun td => td.datetime < d :=
        List.mem_filter.mpr ⟨htd2, by simpa using hlt2⟩
      have hle2 := hmaximal td2 hf2
      omega
    rw [lastKnownBefore, hmax]
    exact carryFold_of_max _ _ _ _ 0 td.datetime hFs hmemF hval hlater

/-- The spec's carry-forward example: A has data on days 1 and 3 only, B
on days 1, 2 and 3 (payloads in descending order). -/
def planC3 : Portfolio := ⟨100, [⟨"A", 1/2⟩, ⟨"B", 1/2⟩]⟩

def dataC3 : StockData :=
  [("A", ⟨"ok", [⟨3, 30⟩, ⟨1, 10⟩]⟩), ("B", ⟨"ok", [⟨3, 12⟩, ⟨2, 11⟩, ⟨1, 10⟩]⟩)]

set_option maxRecDepth 100000 in
/-- Witness for C3: at the union date 2, A has no quote; the value the walk
uses for A equals its day-1 value `50`. -/
theorem carry_forward_uses_last_known_witness :
    "A" ∈ stockSymbols planC3 ∧
    2 ∈ allDatesSorted planC3 dataC3 ∧
    (∀ td ∈ valuesFor dataC3 "A", td.datetime ≠ 2) ∧
    ((valuesFor dataC3 "A").map TradingDay.datetime).Nodup ∧
    valueUsedAt dataC3 (sharesFor planC3 dataC3) "A" (allDatesSorted planC3 dataC3) 2
      = lastKnownBefore (sharesFor planC3 dataC3 "A") (valuesFor dataC3 "A") 2 ∧
    lastKnownBefore (sharesFor planC3 dataC3 "A") (valuesFor dataC3 "A") 2 = 50 :=
  ⟨by decide, by decide, by decide, by decide,
   carry_forward_uses_last_known planC3 dataC3 "A" 2 (by decide) (by decide)
     (by decide) (by decide),
   by with_unfolding_all decide⟩

/-- C10: on any non-throwing run, the output series named after a plan
symbol (not itself named "Total") has its points in strictly ascending
date order, exactly one point per date, and a point exists for a date iff
the symbol itself has a quote on that date — carried-forward dates get no
point in the symbol's own series. -/
theorem symbol_series_points_only_on_own_dates
    (p : Portfolio) (sd : StockData) (a : Asset)
    (h : sharesCrashes p sd = false)
    (ha : a ∈ p.assets)
    (hnt : a.symbol ≠ "Total") :
    ∃ out, updateChartV2 p sd = some out ∧
      ∀ cs ∈ out.chartSeries, cs.name = a.symbol →
        ((cs.data.map SeriesPoint.x).Sorted (· < ·) ∧
         (cs.data.map SeriesPoint.x).Nodup ∧
         ∀ d, d ∈ cs.data.map SeriesPoint.x ↔
           ∃ td ∈ valuesFor sd a.symbol, td.datetime = d) := by
  refine ⟨buildOutput p sd, updateChartV2_eq_some p sd h, ?_⟩
  intro cs hcs hname
  rw [buildOutput_chartSeries] at hcs
  rcases List.mem_append.mp hcs with hmem | hmem
  · obtain ⟨s, hsmem, rfl⟩ := List.mem_map.mp hmem
    have hseq : s = a.symbol := hname
    subst hseq
    rw [symbolSeriesOf_data, seriesDataFor_map_x]
    refine ⟨?_, ?_, ?_⟩
    · exact (allDatesSorted_sorted p sd).sublist (List.filter_sublist _)
    · exact ((allDatesSorted_sorted p sd).sublist (List.filter_sublist _)).nodup
    · intro d
      rw [List.mem_filter]
      constructor
      · rintro ⟨-, hsome⟩
        exact (symbolValueAt_isSome _ _ _).mp (by simpa using hsome)
      · rintro ⟨td, htd, rfl⟩
        exact ⟨quote_mem_allDatesSorted p sd _ hsmem td htd,
          by simpa using (symbolValueAt_isSome _ _ _).mpr ⟨td, htd, rfl⟩⟩
  · simp only [List.mem_singleton] at hmem
    subst hmem
    exact absurd hname.symm hnt

/-- Witness for C10: symbol A of the two-symbol input quotes only on day 3
and its series has exactly that one point. -/
theorem symbol_series_points_only_on_own_dates_witness :
    sharesCrashes planC2 dataC2 = false ∧
    (⟨"A", 1/2⟩ : Asset) ∈ planC2.assets ∧
    ("A" : String) ≠ "Total" ∧
    (∃ out, updateChartV2 planC2 dataC2 = some out ∧
      ∀ cs ∈ out.chartSeries, cs.name = "A" →
        ((cs.data.map SeriesPoint.x).Sorted (· < ·) ∧
         (cs.data.map SeriesPoint.x).Nodup ∧
         ∀ d, d ∈ cs.data.map SeriesPoint.x ↔
           ∃ td ∈ valuesFor dataC2 "A", td.datetime = d)) :=
  ⟨by decide, by with_unfolding_all decide, by decide,
   symbol_series_points_only_on_own_dates planC2 dataC2 ⟨"A", 1/2⟩
     (by decide) (by with_unfolding_all decide) (by decide)⟩

/-- C7: on any non-throwing run, every emitted `y` is an exact multiple of
a hundredth (the 2-decimal output formatting), the Total series is the
pointwise 2-decimal rounding of the full-precision running totals, and
every per-symbol point's `y` is the 2-decimal rounding of the symbol's
full-precision fresh value — no intermediate value is rounded. -/
theorem rounding_only_at_output_boundary
    (p : Portfolio) (sd : StockData) (h : sharesCrashes p sd = false) :
    ∃ out, updateChartV2 p sd = some out ∧
      (∀ cs ∈ out.chartSeries, ∀ pt ∈ cs.data, (100 * pt.y).den = 1) ∧
      (totalSeriesOf p sd).data
        = (allDatesSorted p sd).map (fun d => ⟨d, toFixed2 (fullTotalAt p sd d)⟩) ∧
      ∀ s ∈ stockSymbols p, ∀ pt ∈ (symbolSeriesOf p sd s).data,
        ∃ v, symbolValueAt (sharesFor p sd s) (valuesFor sd s) pt.x = some v ∧
          pt.y = toFixed2 v := by
  have h2 : (totalSeriesOf p sd).data
      = (allDatesSorted p sd).map (fun d => ⟨d, toFixed2 (fullTotalAt p sd d)⟩) := by
    rw [totalSeriesOf_data]
    exact walkTotals_eq_map sd (sharesFor p sd) (stockSymbols p) _ (allDatesSorted_sorted p sd)
  have h3 : ∀ s ∈ stockSymbols p, ∀ pt ∈ (symbolSeriesOf p sd s).data,
      ∃ v, symbolValueAt (sharesFor p sd s) (valuesFor sd s) pt.x = some v ∧
        pt.y = toFixed2 v := by
    intro s hsmem pt hpt
    rw [symbolSeriesOf_data] at hpt
    obtain ⟨e, he, hmap⟩ := List.mem_filterMap.mp hpt
    obtain ⟨v, hv, rfl⟩ := Option.map_eq_some'.mp hmap
    exact ⟨v, hv, rfl⟩
  refine ⟨buildOutput p sd, updateChartV2_eq_some p sd h, ?_, h2, h3⟩
  intro cs hcs pt hpt
  rw [buildOutput_chartSeries] at hcs
  rcases List.mem_append.mp hcs with hmem | hmem
  · obtain ⟨s, hsmem, rfl⟩ := List.mem_map.mp hmem
    obtain ⟨v, -, hy⟩ := h3 s hsmem pt hpt
    rw [hy]
    exact toFixed2_mul_den v
  · simp only [List.mem_singleton] at hmem
    subst hmem
    rw [h2] at hpt
    obtain ⟨d, -, rfl⟩ := List.mem_map.mp hpt
    exact toFixed2_mul_den _

/-- Witness for C7 at the concrete two-symbol input. -/
theorem rounding_only_at_output_boundary_witness :
    sharesCrashes planC2 dataC2 = false ∧
    (∃ out, updateChartV2 planC2 dataC2 = some out ∧
      (∀ cs ∈ out.chartSeries, ∀ pt ∈ cs.data, (100 * pt.y).den = 1) ∧
      (totalSeriesOf planC2 dataC2).data
        = (allDatesSorted planC2 dataC2).map
            (fun d => ⟨d, toFixed2 (fullTotalAt planC2 dataC2 d)⟩) ∧
      ∀ s ∈ stockSymbols planC2, ∀ pt ∈ (symbolSeriesOf planC2 dataC2 s).data,
        ∃ v, symbolValueAt (sharesFor planC2 dataC2 s) (valuesFor dataC2 s) pt.x = some v ∧
          pt.y = toFixed2 v) :=
  ⟨by decide, rounding_only_at_output_boundary planC2 dataC2 (by decide)⟩

/-- C4 counterexample input: initial 0.02 split evenly over four symbols,
each with a single quote of price 1 on day 1, so each holding is worth
exactly 0.005. -/
def planC4 : Portfolio := ⟨1/50, [⟨"A", 1/4⟩, ⟨"B", 1/4⟩, ⟨"C", 1/4⟩, ⟨"D", 1/4⟩]⟩

def dataC4 : StockData :=
  [("A", ⟨"ok", [⟨1, 1⟩]⟩), ("B", ⟨"ok", [⟨1, 1⟩]⟩),
   ("C", ⟨"ok", [⟨1, 1⟩]⟩), ("D", ⟨"ok", [⟨1, 1⟩]⟩)]

set_option maxRecDepth 1000000 in
/-- C4 counterexample: each per-symbol value 0.005 rounds up to 0.01 while
the total 0.02 stays 0.02, so the emitted Total differs from the sum of
the emitted per-symbol values by 0.02, exceeding the claimed 0.01
tolerance. -/
theorem conservation_tolerance_counterexample :
    ((updateChartV2 planC4 dataC4).map fun o =>
        o.chartSeries.map fun cs => (cs.name, cs.data))
      = some [("A", [⟨1, 1/100⟩]), ("B", [⟨1, 1/100⟩]), ("C", [⟨1, 1/100⟩]),
              ("D", [⟨1, 1/100⟩]), ("Total", [⟨1, 1/50⟩])] ∧
    ¬ |(1/50 : ℚ) - (1/100 + 1/100 + 1/100 + 1/100)| ≤ 1/100 :=
  ⟨by with_unfolding_all decide, by with_unfolding_all decide⟩

/-- C4 amended: on any non-throwing run the emitted Total is, at full
precision, exactly the sum of the per-symbol current values (fresh,
carried-forward or zero) — and after the 2-decimal output rounding the
Total differs from the sum of the rounded per-symbol values by at most
`0.005 * (S + 1)` for `S` plan symbols (not the claimed fixed 0.01). -/
theorem conservation_amended
    (p : Portfolio) (sd : StockData) (h : sharesCrashes p sd = false) :
    ∃ out, updateChartV2 p sd = some out ∧
      ∃ ts, out.chartSeries.getLast? = some ts ∧
        ts.data = (allDatesSorted p sd).map
          (fun d => ⟨d, toFixed2 (fullTotalAt p sd d)⟩) ∧
        ∀ d, |toFixed2 (fullTotalAt p sd d)
            - ((stockSymbols p).map fun s =>
                toFixed2 (valueUsedAt sd (sharesFor p sd) s (allDatesSorted p sd) d)).sum|
          ≤ (((stockSymbols p).length : ℚ) + 1) / 200 := by
  refine ⟨buildOutput p sd, updateChartV2_eq_some p sd h, totalSeriesOf p sd, ?_, ?_, ?_⟩
  · rw [buildOutput_chartSeries]
    exact List.getLast?_concat _
  · rw [totalSeriesOf_data]
    exact walkTotals_eq_map sd (sharesFor p sd) (stockSymbols p) _ (allDatesSorted_sorted p sd)
  · intro d
    have h1 : |toFixed2 (fullTotalAt p sd d) - fullTotalAt p sd d| ≤ 1/200 :=
      abs_toFixed2_sub_le _
    have h2 : |((stockSymbols p).map fun s =>
          valueUsedAt sd (sharesFor p sd) s (allDatesSorted p sd) d).sum
        - ((stockSymbols p).map fun s =>
          toFixed2 (valueUsedAt sd (sharesFor p sd) s (allDatesSorted p sd) d)).sum|
        ≤ ((stockSymbols p).length : ℚ) / 200 :=
      abs_sum_sub_sum_le _ _ _ fun s _ => by
        rw [abs_sub_comm]
        exact abs_toFixed2_sub_le _
    have hsum : fullTotalAt p sd d = ((stockSymbols p).map fun s =>
        valueUsedAt sd (sharesFor p sd) s (allDatesSorted p sd) d).sum := rfl
    have key : toFixed2 (fullTotalAt p sd d)
        - ((stockSymbols p).map fun s =>
            toFixed2 (valueUsedAt sd (sharesFor p sd) s (allDatesSorted p sd) d)).sum
      = (toFixed2 (fullTotalAt p sd d) - fullTotalAt p sd d)
        + (((stockSymbols p).map fun s =>
            valueUsedAt sd (sharesFor p sd) s (allDatesSorted p sd) d).sum
          - ((stockSymbols p).map fun s =>
            toFixed2 (valueUsedAt sd (sharesFor p sd) s (allDatesSorted p sd) d)).sum) := by
      rw [hsum]
      ring
    rw [key]
    have h3 := abs_add (toFixed2 (fullTotalAt p sd d) - fullTotalAt p sd d)
      (((stockSymbols p).map fun s =>
          valueUsedAt sd (sharesFor p sd) s (allDatesSorted p sd) d).sum
        - ((stockSymbols p).map fun s =>
          toFixed2 (valueUsedAt sd (sharesFor p sd) s (allDatesSorted p sd) d)).sum)
    have hcast : (((stockSymbols p).length : ℚ) + 1) / 200
        = 1/200 + ((stockSymbols p).length : ℚ) / 200 := by
      ring
    linarith

/-- Witness for the amended C4 at the concrete two-symbol input. -/
theorem conservation_amended_witness :
    sharesCrashes planC2 dataC2 = false ∧
    (∃ out, updateChartV2 planC2 dataC2 = some out ∧
      ∃ ts, out.chartSeries.getLast? = some ts ∧
        ts.data = (allDatesSorted planC2 dataC2).map
          (fun d => ⟨d, toFixed2 (fullTotalAt planC2 dataC2 d)⟩) ∧
        ∀ d, |toFixed2 (fullTotalAt planC2 dataC2 d)
            - ((stockSymbols planC2).map fun s =>
                toFixed2 (valueUsedAt dataC2 (sharesFor planC2 dataC2) s
                  (allDatesSorted planC2 dataC2) d)).sum|
          ≤ (((stockSymbols planC2).length : ℚ) + 1) / 200) :=
  ⟨by decide, conservation_amended planC2 dataC2 (by decide)⟩

/-- C5 counterexample input: A quotes only on day 1, B on days 1 and 2. -/
def planC5 : Portfolio := ⟨100, [⟨"A", 1/2⟩, ⟨"B", 1/2⟩]⟩

def dataC5 : StockData := [("A", ⟨"ok", [⟨1, 10⟩]⟩), ("B", ⟨"ok", [⟨2, 40⟩, ⟨1, 20⟩]⟩)]

set_option maxRecDepth 1000000 in
/-- C5 counterexample: day 2 is an emitted date of the union timeline, but
symbol A's output series has a point only at day 1 — a per-symbol series
does not contain a point at every emitted date. -/
theorem symbol_series_misses_union_date :
    ((updateChartV2 planC5 dataC5).map fun o =>
        o.chartSeries.map fun cs => (cs.name, cs.data.map SeriesPoint.x))
      = some [("A", [1]), ("B", [1, 2]), ("Total", [1, 2])] ∧
    2 ∈ allDatesSorted planC5 dataC5 ∧
    2 ∉ ([1] : List ℕ) :=
  ⟨by with_unfolding_all decide, by decide, by decide⟩

/-- C5 amended: each symbol's output series has a point exactly at the
symbol's own quote dates (the Total series alone covers every emitted
date of the union timeline), plus the one "Total" series. -/
theorem series_coverage_amended
    (p : Portfolio) (sd : StockData) (h : sharesCrashes p sd = false) :
    ∃ out, updateChartV2 p sd = some out ∧
      out.chartSeries = ((stockSymbols p).map (symbolSeriesOf p sd)) ++ [totalSeriesOf p sd] ∧
      (∀ s ∈ stockSymbols p, ∀ d,
        (∃ pt ∈ (symbolSeriesOf p sd s).data, pt.x = d) ↔
          ∃ td ∈ valuesFor sd s, td.datetime = d) ∧
      ∀ d ∈ allDatesSorted p sd, ∃ pt ∈ (totalSeriesOf p sd).data, pt.x = d := by
  refine ⟨buildOutput p sd, updateChartV2_eq_some p sd h, buildOutput_chartSeries p sd, ?_, ?_⟩
  · intro s hsmem d
    have hx : (∃ pt ∈ (symbolSeriesOf p sd s).data, pt.x = d) ↔
        d ∈ (symbolSeriesOf p sd s).data.map SeriesPoint.x := List.mem_map.symm
    rw [hx, symbolSeriesOf_data, seriesDataFor_map_x, List.mem_filter]
    constructor
    · rintro ⟨-, hsome⟩
      exact (symbolValueAt_isSome _ _ _).mp (by simpa using hsome)
    · rintro ⟨td, htd, rfl⟩
      exact ⟨quote_mem_allDatesSorted p sd s hsmem td htd,
        by simpa using (symbolValueAt_isSome _ _ _).mpr ⟨td, htd, rfl⟩⟩
  · intro d hd
    have hmem : d ∈ (totalSeriesOf p sd).data.map SeriesPoint.x := by
      rw [totalSeriesOf_data, walkTotals_map_x]
      exact hd
    obtain ⟨pt, hpt, hx⟩ := List.mem_map.mp hmem
    exact ⟨pt, hpt, hx⟩

/-- Witness for the amended C5 at the concrete two-symbol input. -/
theorem series_coverage_amended_witness :
    sharesCrashes planC5 dataC5 = false ∧
    (∃ out, updateChartV2 planC5 dataC5 = some out ∧
      out.chartSeries
        = ((stockSymbols planC5).map (symbolSeriesOf planC5 dataC5))
          ++ [totalSeriesOf planC5 dataC5] ∧
      (∀ s ∈ stockSymbols planC5, ∀ d,
        (∃ pt ∈ (symbolSeriesOf planC5 dataC5 s).data, pt.x = d) ↔
          ∃ td ∈ valuesFor dataC5 s, td.datetime = d) ∧
      ∀ d ∈ allDatesSorted planC5 dataC5,
        ∃ pt ∈ (totalSeriesOf planC5 dataC5).data, pt.x = d) :=
  ⟨by decide, series_coverage_amended planC5 dataC5 (by decide)⟩

/-- C8 counterexample input: A has exactly one quote (day 2, price 10,
5 shares, value 50); B quotes on days 1 and 2, so day 1 is emitted. -/
def planC8 : Portfolio := ⟨100, [⟨"A", 1/2⟩, ⟨"B", 1/2⟩]⟩

def dataC8 : StockData := [("A", ⟨"ok", [⟨2, 10⟩]⟩), ("B", ⟨"ok", [⟨2, 40⟩, ⟨1, 20⟩]⟩)]

set_option maxRecDepth 1000000 in
/-- C8 counterexample: on emitted day 1, before single-quote symbol A's
only data point, the walk uses 0 for A — not the constant
`shares * price = 50` — and the day-1 Total is 50, B's value alone. -/
theorem single_point_not_constant_before_quote :
    (valuesFor dataC8 "A").length = 1 ∧
    1 ∈ allDatesSorted planC8 dataC8 ∧
    sharesFor planC8 dataC8 "A" * 10 = 50 ∧
    valueUsedAt dataC8 (sharesFor planC8 dataC8) "A" (allDatesSorted planC8 dataC8) 1 = 0 ∧
    ((updateChartV2 planC8 dataC8).map fun o =>
        o.chartSeries.map fun cs => (cs.name, cs.data))
      = some [("A", [⟨2, 50⟩]), ("B", [⟨1, 50⟩, ⟨2, 100⟩]),
              ("Total", [⟨1, 50⟩, ⟨2, 150⟩])] ∧
    (0 : ℚ) ≠ 50 :=
  ⟨by decide, by decide, by with_unfolding_all decide, by with_unfolding_all decide,
   by with_unfolding_all decide, by norm_num⟩

/-- C8 amended: a symbol with exactly one quote point has the constant
value `shares * that one price` at every emitted date from its quote date
onward; at emitted dates before its quote date its value is 0. -/
theorem single_point_stability_amended
    (p : Portfolio) (sd : StockData) (s : String) (td : TradingDay)
    (hs : s ∈ stockSymbols p)
    (hv : valuesFor sd s = [td])
    (d : ℕ) (hd : d ∈ allDatesSorted p sd) :
    (td.datetime ≤ d →
      valueUsedAt sd (sharesFor p sd) s (allDatesSorted p sd) d
        = sharesFor p sd s * td.close) ∧
    (d < td.datetime →
      valueUsedAt sd (sharesFor p sd) s (allDatesSorted p sd) d = 0) := by
  have hFs : ((allDatesSorted p sd).filter fun e => e ≤ d).Sorted (· < ·) :=
    (allDatesSorted_sorted p sd).sublist (List.filter_sublist _)
  have hsingle : ∀ e, symbolValueAt (sharesFor p sd s) (valuesFor sd s) e
      = if e = td.datetime then some (sharesFor p sd s * td.close) else none := by
    intro e
    rw [hv]
    by_cases he : e = td.datetime
    · simp [symbolValueAt, List.find?, he]
    · have hne : td.datetime ≠ e := fun hh => he hh.symm
      simp [symbolValueAt, List.find?, beq_eq_false_iff_ne.mpr hne, he]
  constructor
  · intro hle
    unfold valueUsedAt currentValuesAfter
    apply carryFold_of_max _ _ _ _ 0 td.datetime hFs
    · exact List.mem_filter.mpr
        ⟨quote_mem_allDatesSorted p sd s hs td (by rw [hv]; simp), by simpa using hle⟩
    · rw [hsingle]
      simp
    · intro e he hgt
      rw [hsingle]
      have hne : e ≠ td.datetime := by omega
      simp [hne]
  · intro hlt
    unfold valueUsedAt currentValuesAfter
    apply carryFold_of_none
    intro e he
    rw [hsingle]
    have hle : e ≤ d := by simpa using (List.mem_filter.mp he).2
    have hne : e ≠ td.datetime := by omega
    simp [hne]

set_option maxRecDepth 1000000 in
/-- Witness for the amended C8: at emitted day 2 (A's quote date), A's
value is `5 * 10 = 50`. -/
theorem single_point_stability_amended_witness :
    "A" ∈ stockSymbols planC8 ∧
    valuesFor dataC8 "A" = [⟨2, 10⟩] ∧
    2 ∈ allDatesSorted planC8 dataC8 ∧
    (((⟨2, 10⟩ : TradingDay).datetime ≤ 2 →
      valueUsedAt dataC8 (sharesFor planC8 dataC8) "A" (allDatesSorted planC8 dataC8) 2
        = sharesFor planC8 dataC8 "A" * (⟨2, 10⟩ : TradingDay).close) ∧
     (2 < (⟨2, 10⟩ : TradingDay).datetime →
      valueUsedAt dataC8 (sharesFor planC8 dataC8) "A" (allDatesSorted planC8 dataC8) 2 = 0)) :=
  ⟨by decide, by with_unfolding_all decide, by decide,
   single_point_stability_amended planC8 dataC8 "A" ⟨2, 10⟩ (by decide)
     (by with_unfolding_all decide) 2 (by decide)⟩

/-- C9: re-running the pipeline on the same frozen fetched payload, with
the `rawStockData` cache threaded explicitly, produces the same output
both times — the computation reads no other state. -/
theorem pipeline_idempotent (p : Portfolio) (fetched : StockData) :
    (runUpdateChart p ((runUpdateChart p none fetched).2) fetched).1
      = (runUpdateChart p none fetched).1 := rfl

end ShowResults
